import Mathlib

/-! Verification model of the dimmer utility in src/main.rs.  Machine
integers (u64) are modelled as natural numbers; where the source can wrap
the reduction modulo 2 ^ 64 is explicit (release-profile wrapping
semantics).  Fallible operations return Except or Option.  The ramp loop
is modelled with an explicit fuel argument that provably exceeds the
iteration count; the theorem rampWrites_unfold certifies that the fuelled
definition satisfies the loop equation of the source.  Floating-point
expressions are modelled exactly: a binary64 value is the rational it
denotes, and every operation rounds to nearest, ties to even.  Rational
arithmetic inside these definitions is written through mkRat and integer
arithmetic (the lemmas qMul_eq and qDivNat_eq identify the encodings with
the field operations of ℚ). -/

/-- Error type of src/main.rs (enum DimmerError): an invalid percentage,
or a failed integer parse (InvalidBrightness wraps ParseIntError). -/
inductive DimmerError
  | InvalidPercentage
  | InvalidBrightness
deriving DecidableEq

instance {ε α : Type} [DecidableEq ε] [DecidableEq α] : DecidableEq (Except ε α) :=
  fun a b =>
    match a, b with
    | .ok x, .ok y => decidable_of_iff (x = y) (by simp)
    | .error x, .error y => decidable_of_iff (x = y) (by simp)
    | .ok _, .error _ => isFalse (by simp)
    | .error _, .ok _ => isFalse (by simp)

/-- Step size constant of src/main.rs line 103. -/
def step_size : ℕ := 4

/-- Modulus of u64 arithmetic. -/
def u64Mod : ℕ := 2 ^ 64

/-- One tick of the ramp loop body (src/main.rs lines 114-124), for a
current value distinct from the target: with target zero, decrement by
the step size clamped at zero; otherwise compare the wrapping u64
difference target - current against the step size (both outcomes assign
the target). -/
def rampStep (target step current : ℕ) : ℕ :=
  if target = 0 then
    if current < step then 0 else current - step
  else if (target + u64Mod - current) % u64Mod < step then target
  else target

/-- Fuelled unfolding of the ramp loop of src/main.rs lines 110-130: the
list of values written, in order.  The fuel only bounds the number of
iterations; the wrapper rampWrites supplies provably sufficient fuel, as
certified by rampWrites_unfold. -/
def rampWritesF : ℕ → ℕ → ℕ → ℕ → List ℕ
  | 0, _, _, _ => []
  | fuel + 1, target, step, current =>
    if current = target then []
    else rampStep target step current :: rampWritesF fuel target step (rampStep target step current)

/-- Values written by the ramp engine of one device, in order. -/
def rampWrites (target current : ℕ) : List ℕ :=
  rampWritesF (current + 2) target step_size current

/-- Fuelled list of loop states: the value of current at each top-of-loop
evaluation, the converged final state included. -/
def loopStatesF : ℕ → ℕ → ℕ → ℕ → List ℕ
  | 0, _, _, _ => []
  | fuel + 1, target, step, current =>
    if current = target then [current]
    else current :: loopStatesF fuel target step (rampStep target step current)

/-- Loop states of one engine run. -/
def loopStates (target current : ℕ) : List ℕ :=
  loopStatesF (current + 2) target step_size current

/-- Digit-string parsing of Rust u64-from-str: an optional leading plus,
then one or more ASCII digits, with overflow (values at or above 2 ^ 64)
rejected. -/
def parseU64 (s : String) : Option ℕ :=
  let ds := if s.data.head? = some '+' then s.data.drop 1 else s.data
  if ds = [] then none
  else if ds.all Char.isDigit then
    let n := ds.foldl (fun acc c => acc * 10 + (c.toNat - 48)) 0
    if n < 2 ^ 64 then some n else none
  else none

/-- Rust strip_suffix with the char pattern of src/main.rs line 38:
returns the input without its final character when that character is the
percent sign. -/
def stripSuffixPct (s : String) : Option String :=
  match s.data.getLast? with
  | some c => if c = '%' then some (String.mk s.data.dropLast) else none
  | none => none

/-- Exact multiplication of rationals, written through mkRat so that the
kernel can evaluate it; qMul_eq identifies it with the multiplication of
the field ℚ. -/
def qMul (a b : ℚ) : ℚ := mkRat (a.num * b.num) (a.den * b.den)

/-- Exact division of a rational by a natural, written through mkRat;
qDivNat_eq identifies it with the division of the field ℚ. -/
def qDivNat (a : ℚ) (n : ℕ) : ℚ := mkRat a.num (a.den * n)

/-- Fuelled floor of the base-2 logarithm on naturals; fuel 300 covers
every value below 2 ^ 300. -/
def natLog2F : ℕ → ℕ → ℕ
  | 0, _ => 0
  | fuel + 1, n => if 2 ≤ n then natLog2F fuel (n / 2) + 1 else 0

/-- Binary exponent of a positive rational q: the unique e with
2 ^ e ≤ q < 2 ^ (e + 1), computed as the integer log2 of the floor of
q shifted left by 100 bits; correct for every q above 2 ^ (-100), and all
values arising in this program are far inside that range. -/
def ratExp (q : ℚ) : ℤ :=
  (natLog2F 300 ((q.num * ((2 ^ 100 : ℕ) : ℤ) / (q.den : ℤ)).toNat) : ℤ) - 100

/-- Integer power of two as a rational, for a possibly negative
exponent. -/
def pow2z (k : ℤ) : ℚ :=
  if 0 ≤ k then mkRat ((2 ^ k.toNat : ℕ) : ℤ) 1 else mkRat 1 (2 ^ (-k).toNat)

/-- Rounding of a nonnegative rational to the nearest IEEE-754 binary64
value (round to nearest, ties to even), exact on the normal range used by
this program; nonpositive inputs map to zero (only exact zero occurs in
the program).  The scaled mantissa m lies in [2 ^ 52, 2 ^ 53); its
fractional part fr / m.den is compared against one half by
cross-multiplication. -/
def f64round (q : ℚ) : ℚ :=
  if q ≤ 0 then 0
  else
    let e : ℤ := ratExp q
    let m : ℚ := qMul q (pow2z (52 - e))
    let lo : ℤ := m.floor
    let fr : ℤ := m.num - lo * (m.den : ℤ)
    let mr : ℤ :=
      if 2 * fr < (m.den : ℤ) then lo
      else if (m.den : ℤ) < 2 * fr then lo + 1
      else if lo % 2 = 0 then lo else lo + 1
    qMul (mkRat mr 1) (pow2z (e - 52))

/-- Rust float-to-integer cast (expr as u64): truncation toward zero,
saturating at the bounds of u64. -/
def f64toU64 (q : ℚ) : ℕ :=
  if q ≤ 0 then 0 else min q.floor.toNat (2 ^ 64 - 1)

/-- Brightness.parse_with_percentage of src/main.rs lines 37-50: strip a
percent suffix; with the suffix present, parse the prefix as u64, reject
values above 100, and compute ((p as f64 / 100.0) * max as f64) as u64,
each floating-point operation rounding to the nearest double (100.0 is
exactly representable, so the division by it is one rounded operation);
without the suffix, parse the whole input as u64. -/
def parse_with_percentage (input : String) (max : ℕ) : Except DimmerError ℕ :=
  match stripSuffixPct input with
  | some pct =>
    match parseU64 pct with
    | none => .error .InvalidBrightness
    | some p =>
      if 100 < p then .error .InvalidPercentage
      else
        .ok (f64toU64 (f64round (qMul
          (f64round (qDivNat (f64round (mkRat (p : ℤ) 1)) 100))
          (f64round (mkRat (max : ℤ) 1)))))
  | none =>
    match parseU64 input with
    | none => .error .InvalidBrightness
    | some n => .ok n

/-- Target policy of main (src/main.rs lines 91-99): with the restore
flag, the device whose parent path equals the literal string consisting
of a left brace, the characters SYS_BACKLIGHT_PREFIX, a right brace and
/ddcci9 gets parse_with_percentage of "70"; every other device gets
parse_with_percentage of "100"; without the flag, parse_with_percentage
of "0".  Rust string literals do not interpolate, so the braces and the
identifier in the comparison at line 92 are literal characters, and the
percentage arguments carry no percent sign. -/
def computeTarget (restore : Bool) (parent : String) (maximum : ℕ) : Except DimmerError ℕ :=
  if restore then
    if parent = "\x7bSYS_BACKLIGHT_PREFIX\x7d/ddcci9" then parse_with_percentage "70" maximum
    else parse_with_percentage "100" maximum
  else parse_with_percentage "0" maximum

/-- Clamp of src/main.rs line 101: a computed target above the maximum is
replaced by the maximum. -/
def clampTarget (target maximum : ℕ) : ℕ :=
  if maximum < target then maximum else target

/-- Per-device target exactly as main computes it: policy target, then
the clamp. -/
def deviceTarget (restore : Bool) (parent : String) (maximum : ℕ) : Except DimmerError ℕ :=
  (computeTarget restore parent maximum).map (fun t => clampTarget t maximum)

/-- State of the writable brightness counter: its character content and
the write cursor of the open handle. -/
structure FileState where
  content : List Char
  pos : ℕ

/-- Effect of File::create at src/main.rs line 105: truncate to empty,
cursor at zero. -/
def fileCreate : FileState := FileState.mk [] 0

/-- One write on the open handle (src/main.rs line 128): the bytes land
at the cursor, which advances; there is no reopen and no seek between
writes. -/
def fileWrite (fs : FileState) (s : String) : FileState :=
  FileState.mk
    (fs.content.take fs.pos ++ s.data ++ fs.content.drop (fs.pos + s.length))
    (fs.pos + s.length)

/-- Effect of one engine run on the counter file: each value written in
decimal with no trailing newline, in order, through the one handle. -/
def engineRun (target current : ℕ) (fs : FileState) : FileState :=
  (rampWrites target current).foldl (fun acc v => fileWrite acc (toString v)) fs

/-- Concatenation of character chunks. -/
def catChars : List (List Char) → List Char
  | [] => []
  | x :: xs => x ++ catChars xs

/-- Per-device file effect of main: File::create runs before the engine
is spawned (line 105 precedes line 110), so the prior on-disk state never
flows into the run. -/
def deviceFileRun (_prior : FileState) (target stored : ℕ) : FileState :=
  engineRun target stored fileCreate

/-- The single Option-typed thread handle of main (src/main.rs lines 77
and 110): it is overwritten at each loop iteration, so it retains only
the last spawned engine. -/
def lastSpawned (devices : List String) : Option String :=
  devices.foldl (fun _ d => some d) none

/-- The engines the orchestrator joins before reporting success
(src/main.rs lines 132-134): the content of the single handle, when
present. -/
def joinedEngines (devices : List String) : List String :=
  match lastSpawned devices with
  | some d => [d]
  | none => []

/-- The mkRat encoding of multiplication agrees with the multiplication
of the field ℚ. -/
theorem qMul_eq (a b : ℚ) : qMul a b = a * b := by
  unfold qMul
  rw [Rat.mkRat_eq_div]
  push_cast
  rw [← div_mul_div_comm, Rat.num_div_den, Rat.num_div_den]

/-- The mkRat encoding of division by a natural agrees with the division
of the field ℚ. -/
theorem qDivNat_eq (a : ℚ) (n : ℕ) : qDivNat a n = a / n := by
  unfold qDivNat
  rw [Rat.mkRat_eq_div]
  push_cast
  rw [← div_div, Rat.num_div_den]

/-- With a nonzero target, both outcomes of the wrapped comparison in the
loop body assign the target. -/
theorem rampStep_nonzero (t s c : ℕ) (ht : t ≠ 0) : rampStep t s c = t := by
  simp [rampStep, ht]

/-- With target zero and a positive step, a tick at a nonconverged state
strictly decreases the current value. -/
theorem rampStep_zero_lt (s c : ℕ) (hs : 0 < s) (hc : c ≠ 0) : rampStep 0 s c < c := by
  have h : rampStep 0 s c = if c < s then 0 else c - s := by simp [rampStep]
  rw [h]
  split <;> omega

/-- At a converged state the loop emits no write, at any positive fuel. -/
theorem rampWritesF_self (f t s : ℕ) (hf : 0 < f) : rampWritesF f t s t = [] := by
  cases f with
  | zero => exact absurd hf (lt_irrefl 0)
  | succ n => simp [rampWritesF]

/-- For target zero the fuelled loop is fuel-insensitive once the fuel
exceeds the starting value. -/
theorem rampWritesF_fuel (s : ℕ) (hs : 0 < s) :
    ∀ f₁ f₂ c, c < f₁ → c < f₂ → rampWritesF f₁ 0 s c = rampWritesF f₂ 0 s c := by
  intro f₁
  induction f₁ with
  | zero => intro f₂ c h₁ _; exact absurd h₁ (Nat.not_lt_zero c)
  | succ f ih =>
    intro f₂ c h₁ h₂
    cases f₂ with
    | zero => exact absurd h₂ (Nat.not_lt_zero c)
    | succ b =>
      by_cases hc : c = 0
      · subst hc; simp [rampWritesF]
      · have hlt : rampStep 0 s c < c := rampStep_zero_lt s c hs hc
        have e1 : rampWritesF (f + 1) 0 s c
            = rampStep 0 s c :: rampWritesF f 0 s (rampStep 0 s c) := by
          simp only [rampWritesF]
          rw [if_neg hc]
        have e2 : rampWritesF (b + 1) 0 s c
            = rampStep 0 s c :: rampWritesF b 0 s (rampStep 0 s c) := by
          simp only [rampWritesF]
          rw [if_neg hc]
        rw [e1, e2]
        exact congrArg _ (ih b (rampStep 0 s c) (by omega) (by omega))

/-- The fuelled model satisfies the loop equation of the source: stop on
convergence, otherwise tick, write the new value, and continue from it.
This certifies that the fuel in rampWrites is sufficient. -/
theorem rampWrites_unfold (t c : ℕ) :
    rampWrites t c =
      if c = t then []
      else rampStep t step_size c :: rampWrites t (rampStep t step_size c) := by
  unfold rampWrites
  by_cases hc : c = t
  · subst hc
    rw [if_pos rfl]
    exact rampWritesF_self (c + 2) c step_size (by omega)
  · rw [if_neg hc]
    have e1 : rampWritesF (c + 2) t step_size c
        = rampStep t step_size c :: rampWritesF (c + 1) t step_size (rampStep t step_size c) := by
      simp only [rampWritesF]
      rw [if_neg hc]
    rw [e1]
    congr 1
    by_cases ht : t = 0
    · subst ht
      have hlt : rampStep 0 step_size c < c := rampStep_zero_lt step_size c (by decide) hc
      exact rampWritesF_fuel step_size (by decide) (c + 1) (rampStep 0 step_size c + 2)
        (rampStep 0 step_size c) (by omega) (by omega)
    · rw [rampStep_nonzero t step_size c ht]
      rw [rampWritesF_self (c + 1) t step_size (by omega),
        rampWritesF_self (t + 2) t step_size (by omega)]

/-- At a converged state the state list is the single converged state, at
any positive fuel. -/
theorem loopStatesF_self (f t s : ℕ) (hf : 0 < f) : loopStatesF f t s t = [t] := by
  cases f with
  | zero => exact absurd hf (lt_irrefl 0)
  | succ n => simp [loopStatesF]

/-- Every value the fuelled loop emits stays at or below any bound that
dominates both the target and the starting value. -/
theorem rampWritesF_le (M : ℕ) :
    ∀ f t s c, t ≤ M → c ≤ M → ∀ v ∈ rampWritesF f t s c, v ≤ M := by
  intro f
  induction f with
  | zero => intro t s c _ _ v hv; simp [rampWritesF] at hv
  | succ n ih =>
    intro t s c ht hc v hv
    simp only [rampWritesF] at hv
    by_cases he : c = t
    · rw [if_pos he] at hv; simp at hv
    · rw [if_neg he] at hv
      have hnext : rampStep t s c ≤ M := by
        by_cases ht0 : t = 0
        · subst ht0
          have h : rampStep 0 s c = if c < s then 0 else c - s := by simp [rampStep]
          rw [h]; split <;> omega
        · rw [rampStep_nonzero t s c ht0]; exact ht
      rcases List.mem_cons.mp hv with h | h
      · subst h; exact hnext
      · exact ih t s (rampStep t s c) ht hnext v h

/-- A write through a handle whose cursor sits at the end of the content
appends the bytes and moves the cursor to the new end. -/
theorem fileWrite_at_end (c : List Char) (s : String) :
    fileWrite (FileState.mk c c.length) s
      = FileState.mk (c ++ s.data) (c ++ s.data).length := by
  obtain ⟨sd⟩ := s
  unfold fileWrite
  have h1 : List.take c.length c = c := List.take_length c
  have h2 : List.drop (c.length + (String.mk sd).length) c = [] :=
    List.drop_eq_nil_of_le (by omega)
  have h3 : (c ++ (String.mk sd).data).length = c.length + (String.mk sd).length := by
    simp [String.length, List.length_append]
  rw [h1, h2, List.append_nil, h3]

/-- Folding the engine writes over a handle at end-of-content appends the
concatenation of all decimal texts, in order. -/
theorem foldWrites (l : List ℕ) :
    ∀ c : List Char,
      l.foldl (fun acc v => fileWrite acc (toString v)) (FileState.mk c c.length) =
        FileState.mk (c ++ catChars (l.map fun v => (toString v).data))
          (c ++ catChars (l.map fun v => (toString v).data)).length := by
  induction l with
  | nil => intro c; simp [catChars]
  | cons x xs ih =>
    intro c
    simp only [List.foldl_cons, List.map_cons, catChars]
    rw [fileWrite_at_end, ih (c ++ (toString x).data)]
    simp [List.append_assoc]

/-- Claim C1: in restore mode a non-special device is supposed to get
100 percent of its maximum, i.e. the maximum itself for every maximum;
the code instead computes the absolute value 100 (the percent sign is
missing from the argument at src/main.rs line 97) clamped to the maximum,
so a device with maximum 200 gets ramp target 100, not 200. -/
theorem c1_restore_target_not_maximum :
    deviceTarget true "/sys/class/backlight/intel_backlight" 200 = .ok 100 ∧ (100 : ℕ) ≠ 200 :=
  ⟨rfl, by decide⟩

/-- Claim C2: the ddcci9 device is supposed to get 70 percent of its
maximum in restore mode; the comparison at src/main.rs line 92 is against
a literal string containing braces, which no sysfs parent path equals, so
the special branch is unreachable and the ddcci9 device with maximum 100
gets 100, not 70. -/
theorem c2_ddcci9_gets_default_target :
    deviceTarget true "/sys/class/backlight/ddcci9" 100 = .ok 100 ∧
      ¬ ("/sys/class/backlight/ddcci9" = "\x7bSYS_BACKLIGHT_PREFIX\x7d/ddcci9") ∧
      (100 : ℕ) ≠ 70 :=
  ⟨rfl, by decide, by decide⟩

/-- Claim C3: the orchestrator is supposed to join every spawned engine;
the single Option-typed handle retains only the last engine, so in a run
that discovers two devices the first engine is never joined. -/
theorem c3_only_last_engine_joined :
    joinedEngines ["/sys/class/backlight/card0", "/sys/class/backlight/ddcci9"] =
        ["/sys/class/backlight/ddcci9"] ∧
      "/sys/class/backlight/card0" ∉
        joinedEngines ["/sys/class/backlight/card0", "/sys/class/backlight/ddcci9"] :=
  ⟨rfl, by decide⟩

/-- Claim C4 counterexample: the ramp from 10 to 0 writes 6, 2, 0, and
because every write goes through the same advancing cursor the counter
ends holding the concatenation 620, not the decimal text 0 of the newly
written value. -/
theorem c4_write_appends_cex :
    (engineRun 0 10 fileCreate).content = "620".data ∧ "620".data ≠ "0".data :=
  ⟨rfl, by decide⟩

/-- Claim C4 (amended): every tick that changes the value performs
exactly one write of the decimal text of the new value, but the writes go
through one handle whose cursor advances, so after the run the counter
holds the concatenation of all written values with the cursor at its end;
only the first tick leaves exactly the decimal text of the newly written
value. -/
theorem c4_engineRun_concatenates (t c : ℕ) :
    engineRun t c fileCreate =
      FileState.mk (catChars ((rampWrites t c).map fun v => (toString v).data))
        (catChars ((rampWrites t c).map fun v => (toString v).data)).length := by
  have h := foldWrites (rampWrites t c) []
  simpa [engineRun, fileCreate] using h

/-- Claim C5: ramping from 10 to target 0 with step 4 writes exactly
6, 2, 0 and then stops, and in general with target 0 every nonconverged
tick moves current to current minus the step size, clamped at zero. -/
theorem c5_ramp_to_zero (c : ℕ) (hc : c ≠ 0) :
    rampWrites 0 10 = [6, 2, 0] ∧
      rampWrites 0 c =
        (if c < step_size then 0 else c - step_size) ::
          rampWrites 0 (if c < step_size then 0 else c - step_size) := by
  constructor
  · rfl
  · have h := rampWrites_unfold 0 c
    rw [if_neg hc] at h
    have hs : rampStep 0 step_size c = if c < step_size then 0 else c - step_size := by
      simp [rampStep]
    rw [hs] at h
    exact h

theorem c5_ramp_to_zero_wit :
    rampWrites 0 10 = [6, 2, 0] ∧ rampWrites 0 7 = 3 :: rampWrites 0 3 := by
  have h := c5_ramp_to_zero 7 (by decide)
  refine ⟨h.1, ?_⟩
  have h2 := h.2
  norm_num [step_size] at h2
  exact h2

/-- Claim C6: with a nonzero target different from the start, the engine
writes exactly the target once and terminates, whatever the size or the
direction of the gap. -/
theorem c6_nonzero_target_single_jump (t c : ℕ) (ht : t ≠ 0) (hc : c ≠ t) :
    rampWrites t c = [t] := by
  have h := rampWrites_unfold t c
  rw [if_neg hc, rampStep_nonzero t step_size c ht] at h
  have h2 := rampWrites_unfold t t
  rw [if_pos rfl] at h2
  rw [h, h2]

theorem c6_nonzero_target_single_jump_wit : rampWrites 80 10 = [80] :=
  c6_nonzero_target_single_jump 80 10 (by decide) (by decide)

set_option maxRecDepth 40000 in
/-- Claim C7 counterexample: with maximum 2 ^ 53 + 1 the input of 100
percent yields 2 ^ 53 (the maximum is not representable as a double and
rounds down), while round-toward-zero of 100 / 100 times the maximum is
the maximum itself. -/
theorem c7_float_rounding_cex :
    parse_with_percentage "100%" 9007199254740993 = .ok 9007199254740992 ∧
      (9007199254740992 : ℕ) ≠ 100 * 9007199254740993 / 100 :=
  ⟨by decide, by decide⟩

/-- Claim C7 (amended): for an input that is a parsed u64 numeral
followed by the percent marker, a value above 100 fails with
InvalidPercentage, and a value at most 100 returns the truncation of the
double-precision evaluation of p / 100 times the maximum (conversion of
the maximum to a double and each arithmetic operation rounded to nearest,
ties to even), which can differ from the exact rational value for maxima
at or above 2 ^ 53. -/
theorem c7_percentage_characterization (l : List Char) (M p : ℕ)
    (hp : parseU64 (String.mk l) = some p) :
    parse_with_percentage (String.mk (l ++ ['%'])) M =
      if 100 < p then .error .InvalidPercentage
      else
        .ok (f64toU64 (f64round (qMul
          (f64round (qDivNat (f64round (mkRat (p : ℤ) 1)) 100))
          (f64round (mkRat (M : ℤ) 1))))) := by
  have hs : stripSuffixPct (String.mk (l ++ ['%'])) = some (String.mk l) := by
    simp [stripSuffixPct]
  unfold parse_with_percentage
  rw [hs]
  simp only [hp]

set_option maxRecDepth 40000 in
theorem c7_percentage_characterization_wit :
    parse_with_percentage "50%" 200 = .ok 100 ∧
      parse_with_percentage "150%" 200 = .error .InvalidPercentage := by
  constructor
  · have h := c7_percentage_characterization ("50".data) 200 50 (by decide)
    have e : String.mk ("50".data ++ ['%']) = "50%" := by decide
    rw [e] at h
    rw [h]
    decide
  · have h := c7_percentage_characterization ("150".data) 200 150 (by decide)
    have e : String.mk ("150".data ++ ['%']) = "150%" := by decide
    rw [e] at h
    rw [h]
    decide

/-- Claim C8: with a start at or below the maximum, the clamp at
src/main.rs line 101 caps the computed target at the maximum, and every
value the engine ever writes stays at or below the maximum. -/
theorem c8_writes_bounded (M t c v : ℕ) (hc : c ≤ M)
    (hv : v ∈ rampWrites (clampTarget t M) c) :
    clampTarget t M ≤ M ∧ v ≤ M := by
  have hT : clampTarget t M ≤ M := by
    unfold clampTarget
    split <;> omega
  exact ⟨hT, rampWritesF_le M (c + 2) (clampTarget t M) step_size c hT hc v hv⟩

theorem c8_writes_bounded_wit :
    50 ≤ 100 ∧ 100 ∈ rampWrites (clampTarget 150 100) 50 ∧
      (clampTarget 150 100 ≤ 100 ∧ (100 : ℕ) ≤ 100) :=
  ⟨by decide, by decide, c8_writes_bounded 100 150 50 100 (by decide) (by decide)⟩

/-- Claim C9 counterexample: starting at 200 with target 100, the
nonzero-target branch is evaluated at loop state 200, where current
exceeds the target, so the u64 subtraction target minus current
underflows. -/
theorem c9_underflow_cex :
    200 ∈ loopStates 100 200 ∧ (100 : ℕ) ≠ 0 ∧ (200 : ℕ) ≠ 100 ∧ ¬ (200 ≤ 100) := by
  decide

/-- Claim C9 (amended): with a nonzero target the branch can be reached
with current above the target, so the wrapping subtraction can underflow,
but only at the initial state: every loop state other than the target is
the start, and both outcomes of the wrapped comparison assign the target,
so the written sequence is unaffected. -/
theorem c9_branch_initial_only (t c₀ c s : ℕ) (ht : t ≠ 0)
    (hc : c ∈ loopStates t c₀) (hne : c ≠ t) :
    c = c₀ ∧ rampStep t s c = t := by
  refine ⟨?_, rampStep_nonzero t s c ht⟩
  unfold loopStates at hc
  by_cases h0 : c₀ = t
  · subst h0
    rw [loopStatesF_self (c₀ + 2) c₀ step_size (by omega)] at hc
    simp at hc
    exact absurd hc hne
  · have e : loopStatesF (c₀ + 2) t step_size c₀
        = c₀ :: loopStatesF (c₀ + 1) t step_size (rampStep t step_size c₀) := by
      simp only [loopStatesF]
      rw [if_neg h0]
    rw [e, rampStep_nonzero t step_size c₀ ht,
      loopStatesF_self (c₀ + 1) t step_size (by omega)] at hc
    simp at hc
    rcases hc with h | h
    · exact h
    · exact absurd h hne

theorem c9_branch_initial_only_wit :
    (100 : ℕ) ≠ 0 ∧ 200 ∈ loopStates 100 200 ∧ (200 : ℕ) ≠ 100 ∧
      ((200 : ℕ) = 200 ∧ rampStep 100 4 200 = 100) :=
  ⟨by decide, by decide, by decide,
    c9_branch_initial_only 100 200 200 4 (by decide) (by decide) (by decide)⟩

/-- Claim C10: the counter is opened with File::create, which truncates,
before the engine is spawned, so the run is independent of the prior file
state, and a run whose start already equals the target performs zero
writes and leaves the counter empty. -/
theorem c10_create_truncates (prior : FileState) (t c : ℕ) :
    deviceFileRun prior t c = engineRun t c fileCreate ∧
      (c = t → (deviceFileRun prior t c).content = [] ∧ rampWrites t c = []) := by
  refine ⟨rfl, fun h => ?_⟩
  have h0 : rampWrites t c = [] := by
    subst h
    have hu := rampWrites_unfold c c
    rw [if_pos rfl] at hu
    exact hu
  constructor
  · show (engineRun t c fileCreate).content = []
    simp [engineRun, h0, fileCreate]
  · exact h0

theorem c10_create_truncates_wit :
    (deviceFileRun (FileState.mk "42".data 2) 7 7).content = [] ∧ rampWrites 7 7 = [] :=
  (c10_create_truncates (FileState.mk "42".data 2) 7 7).2 rfl
